import Mathlib

/-!
Verification of the opentag tag-tree core: data model, validator,
serializer filter, invocation resolver, mutation engine, input parsers
and the action dispatcher, shallowly embedded from the Rust sources
(`src/tag.rs`, `src/commands.rs`, `src/parser.rs`, `src/error.rs`).
Interactive prompts, clipboard, OS-open and file I/O are external
collaborators; their answers appear as explicit parameters and their
effects as records.
-/

namespace Opentag

/-- Error type, from `src/error.rs` (`enum Error`). -/
inductive Error where
  | NameInUse (name : String)
  | ReservedName (name : String)
  | MissingName
  | NoTagFound
  | EmptyName
  | NameWithSpaces
  | NameBeginsWithHyphen
  | TagWithNoPath
  | UnexpectedCommand (cmd : String)
deriving DecidableEq, Repr

/-- Display messages of `Error`, from the `Display` impl in `src/error.rs`. -/
def errorMessage : Error → String
  | Error.NameInUse n => "a tag with name `" ++ n ++ "` already exists"
  | Error.ReservedName n => "`" ++ n ++ "` cannot be used as a tag name"
  | Error.MissingName => "there must be at least one name"
  | Error.NoTagFound => "no tag found"
  | Error.EmptyName => "tag names cannot be empty"
  | Error.NameWithSpaces => "tag names cannot contain spaces"
  | Error.NameBeginsWithHyphen => "tag names cannot begin with hyphens"
  | Error.TagWithNoPath => "tag has no path or URL"
  | Error.UnexpectedCommand c => "unexpected command: " ++ c

/-- A tag node, from `struct Tag` in `src/tag.rs`: names (primary plus
aliases), optional path, about text and default app, and ordered subtags. -/
inductive Tag where
  | mk (names : List String) (path : Option String) (about : Option String)
      (app : Option String) (subtags : List Tag)
deriving Repr

/-- `Tag.names` field accessor. -/
def Tag.names : Tag → List String
  | Tag.mk ns _ _ _ _ => ns

/-- `Tag.path` field accessor. -/
def Tag.path : Tag → Option String
  | Tag.mk _ p _ _ _ => p

/-- `Tag.about` field accessor. -/
def Tag.about : Tag → Option String
  | Tag.mk _ _ ab _ _ => ab

/-- `Tag.app` field accessor. -/
def Tag.app : Tag → Option String
  | Tag.mk _ _ _ a _ => a

/-- `Tag.subtags` field accessor. -/
def Tag.subtags : Tag → List Tag
  | Tag.mk _ _ _ _ subs => subs

/-- The reserved management words, `DEFAULT_SUBCOMMAND_NAMES` in
`src/commands.rs`. -/
def DEFAULT_SUBCOMMAND_NAMES : List String := ["add", "remove", "update"]

/-- Inner name loop of `validate_tags` in `src/tag.rs`: walks one tag's
names with the set of names already seen at this level; errors with
`NameInUse` on a repeat and `ReservedName` on a reserved word, otherwise
returns the enlarged seen set.  The `HashSet` is modelled as a list with
membership. -/
def checkNamesSeen (seen : List String) : List String → Except Error (List String)
  | [] => Except.ok seen
  | n :: ns =>
    if n ∈ seen then Except.error (Error.NameInUse n)
    else if n ∈ DEFAULT_SUBCOMMAND_NAMES then Except.error (Error.ReservedName n)
    else checkNamesSeen (n :: seen) ns

/-- Outer tag loop of the per-level duplicate/reserved check of
`validate_tags`: one shared seen set across all sibling tags. -/
def checkLevelAux (seen : List String) : List Tag → Except Error (List String)
  | [] => Except.ok seen
  | t :: ts =>
    match checkNamesSeen seen t.names with
    | Except.error e => Except.error e
    | Except.ok seen2 => checkLevelAux seen2 ts

/-- Recursive part of `validate_tags`: after a level passed its own check,
every tag's subtag level is checked, then descended into, in order;
matches the second `for` loop of `recurse` in `src/tag.rs`. -/
def validate_children : List Tag → Except Error Unit
  | [] => Except.ok ()
  | Tag.mk _ _ _ _ subs :: ts =>
    match checkLevelAux [] subs with
    | Except.error e => Except.error e
    | Except.ok _ =>
      match validate_children subs with
      | Except.error e => Except.error e
      | Except.ok _ => validate_children ts

/-- `validate_tags` from `src/tag.rs`: no two tags at the same level share
a name, and no name anywhere equals a reserved word; first conflict in
pre-order wins. -/
def validate_tags (tags : List Tag) : Except Error Unit :=
  match checkLevelAux [] tags with
  | Except.error e => Except.error e
  | Except.ok _ => validate_children tags

/-- `skip_no_names` from `src/tag.rs`, applied as serde serializer at the
root sequence and at every `subtags` field: drops tags whose `names` is
empty, recursively. -/
def skip_no_names : List Tag → List Tag
  | [] => []
  | Tag.mk ns p ab a subs :: ts =>
    if ns.isEmpty then skip_no_names ts
    else Tag.mk ns p ab a (skip_no_names subs) :: skip_no_names ts

/-- A `clap::ArgMatches` as the resolver sees it: the per-level action
flags plus an optional nested subcommand invocation.  `info` is read with
`try_remove_one` in the code, which yields `false` when the id is absent,
so a plain `Bool` is faithful. -/
inductive ArgMatches where
  | mk (listFlag printFlag copyFlag silentCopyFlag infoFlag : Bool)
      (appOpt : Option String) (sub : Option (String × ArgMatches))

/-- `listFlag` accessor (`matches.get_flag("list")`). -/
def ArgMatches.listFlag : ArgMatches → Bool
  | ArgMatches.mk b _ _ _ _ _ _ => b

/-- `printFlag` accessor (`matches.get_flag("print")`). -/
def ArgMatches.printFlag : ArgMatches → Bool
  | ArgMatches.mk _ b _ _ _ _ _ => b

/-- `copyFlag` accessor (`matches.get_flag("copy")`). -/
def ArgMatches.copyFlag : ArgMatches → Bool
  | ArgMatches.mk _ _ b _ _ _ _ => b

/-- `silentCopyFlag` accessor (`matches.get_flag("silent-copy")`). -/
def ArgMatches.silentCopyFlag : ArgMatches → Bool
  | ArgMatches.mk _ _ _ b _ _ _ => b

/-- `infoFlag` accessor (`matches.try_remove_one::<bool>("info")`). -/
def ArgMatches.infoFlag : ArgMatches → Bool
  | ArgMatches.mk _ _ _ _ b _ _ => b

/-- `appOpt` accessor (`matches.remove_one::<String>("app")`). -/
def ArgMatches.appOpt : ArgMatches → Option String
  | ArgMatches.mk _ _ _ _ _ a _ => a

/-- `matches.remove_subcommand()`: the nested subcommand, if any. -/
def ArgMatches.removeSubcommand : ArgMatches → Option (String × ArgMatches)
  | ArgMatches.mk _ _ _ _ _ _ s => s

/-- The chain of subcommand names below a `clap` match: the remaining
invocation segments after the current one. -/
def segmentsOf : ArgMatches → List String
  | ArgMatches.mk _ _ _ _ _ _ none => []
  | ArgMatches.mk _ _ _ _ _ _ (some (s, m)) => s :: segmentsOf m

/-- A nested subcommand match is structurally smaller than its parent. -/
theorem ArgMatches.sizeOf_sub_lt (m sm : ArgMatches) (s : String)
    (h : m.removeSubcommand = some (s, sm)) : sizeOf sm < sizeOf m := by
  cases m with
  | mk l p c sc i a sub =>
    cases sub with
    | none => simp [ArgMatches.removeSubcommand] at h
    | some pair =>
      simp [ArgMatches.removeSubcommand] at h
      cases pair with
      | mk fst snd =>
        simp at h
        cases h with
        | intro h1 h2 =>
          subst h1; subst h2
          simp
          omega

/-- `find_matching_tag` from `src/tag.rs`.  The source's `for` loop
returns on the first tag whose `names` contain `cmd` and does nothing on
other iterations, so it is the first match of a linear scan.  On a match:
if the remaining invocation starts with a reserved word, stop and return
the current tag with the reserved word; else recurse into its subtags;
with no remaining segments return the tag itself. -/
def find_matching_tag (tags : List Tag) (cmd : String) (m : ArgMatches) :
    Option (Tag × ArgMatches × Option String) :=
  match tags.find? (fun t => t.names.contains cmd) with
  | none => none
  | some t =>
    match h : m.removeSubcommand with
    | some (subcmd, subMatches) =>
      if subcmd ∈ DEFAULT_SUBCOMMAND_NAMES then some (t, subMatches, some subcmd)
      else find_matching_tag t.subtags subcmd subMatches
    | none => some (t, m, none)
termination_by sizeOf m
decreasing_by exact ArgMatches.sizeOf_sub_lt m subMatches subcmd h

/-- `MatchOptions` from `src/commands.rs`: the merged action flags. -/
structure MatchOptions where
  print : Bool := false
  copy : Bool := false
  list : Bool := false
  silent_copy : Bool := false
  app : Option String := none
  info : Bool := false
deriving DecidableEq, Repr

/-- `MatchOptions::from_matches` from `src/commands.rs`: merge the
matches of every traversed level, in traversal order; boolean flags are
or-ed in, and `app` is only taken when not already set. -/
def MatchOptions.from_matches (lom : List ArgMatches) : MatchOptions :=
  lom.foldl
    (fun flags m =>
      { list := flags.list || m.listFlag
        print := flags.print || m.printFlag
        copy := flags.copy || m.copyFlag
        silent_copy := flags.silent_copy || m.silentCopyFlag
        app := match flags.app with
          | some a => some a
          | none => m.appOpt
        info := flags.info || m.infoFlag })
    {}

/-- Externally visible effects of one `run_tag` call: which collaborator
facilities (terminal, clipboard, OS open) were invoked and with what. -/
structure RunEffects where
  listedSubtags : Bool := false
  printedNoTags : Bool := false
  printedInfo : Bool := false
  copiedPath : Option String := none
  printedPath : Option String := none
  opened : Option (String × Option String) := none
deriving DecidableEq, Repr

/-- `run_tag` from `src/commands.rs`.  List mode prints subtags (or
"No tags!" unless info is set) and returns.  Info mode prints the tag
info and returns unless a copy of an existing path was also requested.
Otherwise a missing path is an error; the path is copied if requested,
printed if requested, and opened (with the option app override, else the
tag's app) unless silenced by silent-copy or info.  Tilde expansion of
the path is the external `shellexpand` collaborator and is not modelled;
effects record the stored path. -/
def run_tag (tag : Tag) (options : MatchOptions) : Except Error RunEffects :=
  if options.list then
    if tag.subtags.isEmpty = false then Except.ok { listedSubtags := true }
    else if options.info = false then Except.ok { printedNoTags := true }
    else Except.ok {}
  else if options.info && (!options.copy || tag.path.isNone) then
    Except.ok { printedInfo := true }
  else
    match tag.path with
    | none => Except.error Error.TagWithNoPath
    | some path =>
      let silent := options.silent_copy || options.info
      let copied := if options.copy || options.silent_copy then some path else none
      if options.print then
        Except.ok { printedInfo := options.info, copiedPath := copied, printedPath := some path }
      else if silent = false then
        Except.ok { printedInfo := options.info, copiedPath := copied,
                    opened := some (path, match options.app with
                      | some a => some a
                      | none => tag.app) }
      else
        Except.ok { printedInfo := options.info, copiedPath := copied }

/-- Splits a character list at a separator, mirroring Rust's
`str::split`: an empty input yields one empty piece, and separators at
the edges yield empty pieces. -/
def splitChars (sep : Char) : List Char → List (List Char)
  | [] => [[]]
  | c :: cs =>
    let rest := splitChars sep cs
    if c = sep then [] :: rest
    else
      match rest with
      | [] => [[c]]
      | g :: gs => (c :: g) :: gs

/-- `s.split(',')` on a string, as a list of strings. -/
def splitOnComma (s : String) : List String :=
  (splitChars ',' s.data).map (fun g => String.mk g)

/-- `s.starts_with('-')`. -/
def beginsWithHyphen (s : String) : Bool :=
  match s.data with
  | [] => false
  | c :: _ => c = '-'

/-- `tag_name_parser` from `src/parser.rs`: the `clap` value parser run
on an inline primary tag name before any mutation code executes. -/
def parse_tag_name (s : String) : Except String String :=
  if s.data.isEmpty then Except.error "tag names cannot be empty"
  else if s.data.any (fun c => c = ' ') then Except.error "tag names cannot contain spaces"
  else if beginsWithHyphen s then Except.error "tag names cannot begin with hyphens"
  else if s ∈ DEFAULT_SUBCOMMAND_NAMES then
    Except.error ("`" ++ s ++ "` cannot be used as a tag name")
  else Except.ok s

/-- `tag_aliases_parser` from `src/parser.rs`: the `clap` value parser
run on an inline comma-separated alias list; checks the whole string for
spaces and a leading hyphen, then each piece against the reserved words. -/
def parse_tag_aliases (s : String) : Except String (List String) :=
  if s.data.any (fun c => c = ' ') then Except.error "tag aliases cannot contain spaces"
  else if beginsWithHyphen s then Except.error "tag aliases cannot begin with hyphens"
  else
    let names := splitOnComma s
    match names.find? (fun n => DEFAULT_SUBCOMMAND_NAMES.contains n) with
    | some n => Except.error ("`" ++ n ++ "` cannot be used as a tag name")
    | none => Except.ok names

/-- `check_if_names_are_used` from `src/commands.rs`: the first of
`names` that any sibling tag already carries. -/
def check_if_names_are_used (names : List String) (subtags : List Tag) : Option String :=
  names.find? (fun n => subtags.any (fun t => t.names.contains n))

/-- `add_tag_inline` from `src/commands.rs`, with the `&mut Tags`
argument made explicit state: on a name collision the sequence is
returned untouched with `NameInUse`, otherwise the tag is pushed at the
end. -/
def add_tag_inline (tag : Tag) (tags : List Tag) : Except Error Unit × List Tag :=
  match check_if_names_are_used tag.names tags with
  | some name => (Except.error (Error.NameInUse name), tags)
  | none => (Except.ok (), tags ++ [tag])

/-- The alias argument of an inline add, as `tag_from_add_matches` reads
it: absent, or a string parsed by the alias parser. -/
def parse_alias_arg : Option String → Except String (List String)
  | none => Except.ok []
  | some s => parse_tag_aliases s

/-- The inline add pipeline: `clap` runs the name and alias value
parsers (`src/parser.rs`, wired in `src/app.rs`), `tag_from_add_matches`
builds the tag with the primary name first, and `add_tag_inline`
appends.  Mutation-engine errors are surfaced through their `Display`
message. -/
def add_tag_command (nameArg : String) (aliasArg : Option String) (tags : List Tag) :
    Except String Unit × List Tag :=
  match parse_tag_name nameArg with
  | Except.error e => (Except.error e, tags)
  | Except.ok name =>
    match parse_alias_arg aliasArg with
    | Except.error e => (Except.error e, tags)
    | Except.ok aliases =>
      match add_tag_inline (Tag.mk (name :: aliases) none none none []) tags with
      | (Except.error e, ts) => (Except.error (errorMessage e), ts)
      | (Except.ok _, ts) => (Except.ok (), ts)

/-- Clears a tag's names, leaving everything else in place: the
tombstone write `tag.names.clear()` of the remove operation. -/
def clearNames : Tag → Tag
  | Tag.mk _ p ab a subs => Tag.mk [] p ab a subs

/-- `remove_tag_inline` from `src/commands.rs`.  `noPrompt` is the
`no-prompt` flag; `confirmed` is the collaborator's answer to the
confirmation prompt.  The prompt interpolates `tag.names[0]`, a partial
access: `none` models that panic.  On removal the tag is tombstoned in
place, not spliced out. -/
def remove_tag_inline (tag : Tag) (noPrompt confirmed : Bool) : Option (Tag × Bool) :=
  if noPrompt = false then
    match tag.names.head? with
    | none => none
    | some _ =>
      if confirmed = false then some (tag, false)
      else some (clearNames tag, true)
  else some (clearNames tag, true)

/-- The update arguments, as `clap` hands them to `update_tag_inline`:
for each field, `none` is an absent flag, `some none` a flag given
without a value (`contains_id` true, `remove_one` none), and
`some (some v)` a flag with a value. -/
structure UpdateArgs where
  name : Option String := none
  aliasList : Option (Option (List String)) := none
  path : Option (Option String) := none
  about : Option (Option String) := none
  app : Option (Option String) := none
deriving Repr

/-- The alias step of `update_tag_inline`: a non-empty alias list
replaces `names[1..]` via `splice`, an alias flag without a value
truncates to the primary name, an absent flag leaves names alone. -/
def applyAliases (names : List String) (arg : Option (Option (List String))) : List String :=
  let clearAliases := arg.isSome
  let aliases := match arg with
    | some (some as) => as
    | _ => []
  if aliases.isEmpty = false then names.take 1 ++ aliases
  else if clearAliases then names.take 1
  else names

/-- The `update_if_present` closure of `update_tag_inline`: a value sets
the field, a value-less flag clears it, an absent flag is a no-op. -/
def updateIfPresent (arg : Option (Option String)) (field : Option String) : Option String :=
  match arg with
  | none => field
  | some none => none
  | some (some v) => some v

/-- `update_tag_inline` from `src/commands.rs`.  A new primary name is
written to `names[0]`, a partial access that panics on a tombstoned tag:
`none` models that panic.  Then aliases, path, about and app are applied
per flag presence. -/
def update_tag_inline (tag : Tag) (args : UpdateArgs) : Option Tag :=
  let names1 : Option (List String) :=
    match args.name with
    | none => some tag.names
    | some n =>
      match tag.names with
      | [] => none
      | _ :: rest => some (n :: rest)
  match names1 with
  | none => none
  | some ns =>
    some (Tag.mk (applyAliases ns args.aliasList)
      (updateIfPresent args.path tag.path)
      (updateIfPresent args.about tag.about)
      (updateIfPresent args.app tag.app)
      tag.subtags)

/-- `select_tag` from `src/commands.rs`, with the interactive fuzzy
selection replaced by an oracle list of per-level answers (`none` is
`esc`).  Building the prompt items takes every sibling's first name with
`expect`, and the chosen index is fetched with `expect`: the outer
`none` models those panics.  Choosing a tag with subtags descends; an
inner `esc` selects the parent. -/
def select_tag (tags : List Tag) (choices : List (Option Nat)) : Option (Option Tag) :=
  if tags.any (fun u => u.names.isEmpty) then none
  else
    match choices with
    | [] => some none
    | none :: _ => some none
    | some i :: rest =>
      match tags[i]? with
      | none => none
      | some t =>
        if t.subtags.isEmpty = false then
          match select_tag t.subtags rest with
          | none => none
          | some (some u) => some (some u)
          | some none => some (some t)
        else some (some t)

/-- The shape of a `clap` command built from a tag: name, visible
aliases, about text and nested subcommands. -/
inductive CmdTree where
  | mk (name : String) (aliases : List String) (longAbout : Option String)
      (subs : List CmdTree)

/-- `command_from_tag` mapped over a tag list, as `subcommands(...)`
evaluates it; `none` models the `expect("expected at least one name")`
panic of any nameless tag in the subtree. -/
def commands_from_tags : List Tag → Option (List CmdTree)
  | [] => some []
  | Tag.mk ns _ ab _ subs :: ts =>
    match ns.head? with
    | none => none
    | some n =>
      match commands_from_tags subs with
      | none => none
      | some cs =>
        match commands_from_tags ts with
        | none => none
        | some rest => some (CmdTree.mk n (ns.drop 1) ab cs :: rest)

/-- `command_from_tag` from `src/tag.rs`: the first name becomes the
command name (`expect` panic modelled as `none`), the remaining names
its aliases, and every subtag a nested subcommand. -/
def command_from_tag (t : Tag) : Option CmdTree :=
  match t with
  | Tag.mk ns _ ab _ subs =>
    match ns.head? with
    | none => none
    | some n => (commands_from_tags subs).map (fun cs => CmdTree.mk n (ns.drop 1) ab cs)

/-- Every tag of the forest, at the root level and recursively below,
has at least one name (is live). -/
def allLive : List Tag → Bool
  | [] => true
  | Tag.mk ns _ _ _ subs :: ts => !ns.isEmpty && allLive subs && allLive ts

/-- The oracle answers of a selection session stay in bounds of the
levels they address. -/
def choicesOk : List Tag → List (Option Nat) → Bool
  | _, [] => true
  | _, none :: _ => true
  | tags, some i :: rest =>
    match tags[i]? with
    | none => false
    | some t => t.subtags.isEmpty || choicesOk t.subtags rest

/-- Occurrence of a tag anywhere in a forest: at the root level or
inside some root's subtree. -/
inductive InForest : Tag → List Tag → Prop where
  | root (t : Tag) (ts : List Tag) : t ∈ ts → InForest t ts
  | child (t u : Tag) (ts : List Tag) : u ∈ ts → InForest t u.subtags → InForest t ts

/-- A full name path from the root of a forest to a tag: at each level
one live tag is addressed by its primary name or any alias, descending
through `subtags`. -/
inductive PathTo : List Tag → List String → Tag → Prop where
  | here (t : Tag) (ts : List Tag) (n : String) :
      t ∈ ts → n ∈ t.names → PathTo ts [n] t
  | there (t : Tag) (ts : List Tag) (n : String) (rest : List String) (target : Tag) :
      t ∈ ts → n ∈ t.names → PathTo t.subtags rest target → PathTo ts (n :: rest) target

/-! ## Validator helper lemmas -/

theorem checkNamesSeen_subset {ns : List String} :
    ∀ {seen out : List String}, checkNamesSeen seen ns = Except.ok out →
    ∀ x, x ∈ seen → x ∈ out := by
  induction ns with
  | nil =>
    intro seen out h x hx
    simp [checkNamesSeen] at h
    exact h ▸ hx
  | cons n ns ih =>
    intro seen out h x hx
    simp only [checkNamesSeen] at h
    by_cases h1 : n ∈ seen
    · simp [h1] at h
    · by_cases h2 : n ∈ DEFAULT_SUBCOMMAND_NAMES
      · simp [h1, h2] at h
      · simp [h1, h2] at h
        exact ih h x (List.mem_cons_of_mem n hx)

theorem checkNamesSeen_mem {ns : List String} :
    ∀ {seen out : List String}, checkNamesSeen seen ns = Except.ok out →
    ∀ n, n ∈ ns → n ∉ seen ∧ n ∉ DEFAULT_SUBCOMMAND_NAMES ∧ n ∈ out := by
  induction ns with
  | nil =>
    intro seen out h n hn
    simp at hn
  | cons m ns ih =>
    intro seen out h n hn
    simp only [checkNamesSeen] at h
    by_cases h1 : m ∈ seen
    · simp [h1] at h
    · by_cases h2 : m ∈ DEFAULT_SUBCOMMAND_NAMES
      · simp [h1, h2] at h
      · simp [h1, h2] at h
        rcases List.mem_cons.mp hn with rfl | hn2
        · exact ⟨h1, h2, checkNamesSeen_subset h n (List.mem_cons_self n seen)⟩
        · have h3 := ih h n hn2
          exact ⟨fun hc => h3.1 (List.mem_cons_of_mem m hc), h3.2.1, h3.2.2⟩

theorem checkLevelAux_subset {ts : List Tag} :
    ∀ {seen out : List String}, checkLevelAux seen ts = Except.ok out →
    ∀ x, x ∈ seen → x ∈ out := by
  induction ts with
  | nil =>
    intro seen out h x hx
    simp [checkLevelAux] at h
    exact h ▸ hx
  | cons t ts ih =>
    intro seen out h x hx
    simp only [checkLevelAux] at h
    cases h2 : checkNamesSeen seen t.names with
    | error e => rw [h2] at h; exact absurd h (by simp)
    | ok seen2 =>
      rw [h2] at h
      exact ih h x (checkNamesSeen_subset h2 x hx)

theorem checkLevelAux_mem {ts : List Tag} :
    ∀ {seen out : List String}, checkLevelAux seen ts = Except.ok out →
    ∀ t, t ∈ ts → ∀ n, n ∈ t.names →
    n ∉ seen ∧ n ∉ DEFAULT_SUBCOMMAND_NAMES := by
  induction ts with
  | nil =>
    intro seen out h t ht
    simp at ht
  | cons u ts ih =>
    intro seen out h t ht n hn
    simp only [checkLevelAux] at h
    cases h2 : checkNamesSeen seen u.names with
    | error e => rw [h2] at h; exact absurd h (by simp)
    | ok seen2 =>
      rw [h2] at h
      rcases List.mem_cons.mp ht with rfl | ht2
      · have h3 := checkNamesSeen_mem h2 n hn
        exact ⟨h3.1, h3.2.1⟩
      · have h3 := ih h t ht2 n hn
        exact ⟨fun hc => h3.1 (checkNamesSeen_subset h2 n hc), h3.2⟩

/-- In a level that passes the duplicate check, the linear scan of
`find_matching_tag` locates exactly the tag that carries the name. -/
theorem find?_level {ts : List Tag} :
    ∀ {seen out : List String}, checkLevelAux seen ts = Except.ok out →
    ∀ t, t ∈ ts → ∀ cmd, cmd ∈ t.names →
    ts.find? (fun u => u.names.contains cmd) = some t := by
  induction ts with
  | nil =>
    intro seen out h t ht
    simp at ht
  | cons u ts ih =>
    intro seen out h t ht cmd hcmd
    simp only [checkLevelAux] at h
    cases h2 : checkNamesSeen seen u.names with
    | error e => rw [h2] at h; exact absurd h (by simp)
    | ok seen2 =>
      rw [h2] at h
      rcases List.mem_cons.mp ht with rfl | ht2
      · exact List.find?_cons_of_pos ts (by simp [hcmd])
      · have hnotu : cmd ∉ u.names := by
          intro hcu
          have hseen2 : cmd ∈ seen2 := (checkNamesSeen_mem h2 cmd hcu).2.2
          exact ((checkLevelAux_mem h t ht2 cmd hcmd).1) hseen2
        rw [List.find?_cons_of_neg ts (by simp [hnotu])]
        exact ih h t ht2 cmd hcmd

/-- A forest passing `validate_tags` passes it at every subtag level. -/
theorem validate_children_mem {ts : List Tag} :
    validate_children ts = Except.ok () → ∀ t, t ∈ ts →
    validate_tags t.subtags = Except.ok () := by
  induction ts with
  | nil =>
    intro _ t ht
    simp at ht
  | cons u ts ih =>
    intro h t ht
    cases u with
    | mk ns p ab a subs =>
      simp only [validate_children] at h
      cases h2 : checkLevelAux [] subs with
      | error e => rw [h2] at h; exact absurd h (by simp)
      | ok seen2 =>
        rw [h2] at h
        cases h3 : validate_children subs with
        | error e => rw [h3] at h; exact absurd h (by simp)
        | ok _ =>
          rw [h3] at h
          rcases List.mem_cons.mp ht with rfl | ht2
          · simp [validate_tags, Tag.subtags, h2, h3]
          · exact ih h t ht2

theorem validate_tags_level {ts : List Tag} (h : validate_tags ts = Except.ok ()) :
    ∃ out, checkLevelAux [] ts = Except.ok out := by
  simp only [validate_tags] at h
  cases h2 : checkLevelAux [] ts with
  | error e => rw [h2] at h; exact absurd h (by simp)
  | ok out => exact ⟨out, rfl⟩

theorem validate_tags_children {ts : List Tag} (h : validate_tags ts = Except.ok ()) :
    validate_children ts = Except.ok () := by
  simp only [validate_tags] at h
  cases h2 : checkLevelAux [] ts with
  | error e => rw [h2] at h; exact absurd h (by simp)
  | ok out => rw [h2] at h; exact h

/-- A forest passing `validate_tags` does so at each root's subtags. -/
theorem validate_tags_mem {ts : List Tag} (h : validate_tags ts = Except.ok ())
    {t : Tag} (ht : t ∈ ts) : validate_tags t.subtags = Except.ok () :=
  validate_children_mem (validate_tags_children h) t ht

/-! ## Resolver helper lemmas -/

theorem segmentsOf_eq_nil {m : ArgMatches} (h : segmentsOf m = []) :
    m.removeSubcommand = none := by
  cases m with
  | mk l p c sc i a sub =>
    cases sub with
    | none => rfl
    | some pair =>
      cases pair
      simp [segmentsOf] at h

theorem segmentsOf_eq_cons {m : ArgMatches} {s : String} {rest : List String}
    (h : segmentsOf m = s :: rest) :
    ∃ m2, m.removeSubcommand = some (s, m2) ∧ segmentsOf m2 = rest := by
  cases m with
  | mk l p c sc i a sub =>
    cases sub with
    | none => simp [segmentsOf] at h
    | some pair =>
      cases pair with
      | mk s2 m2 =>
        simp only [segmentsOf, List.cons.injEq] at h
        exact ⟨m2, by simp [ArgMatches.removeSubcommand, h.1], h.2⟩

theorem PathTo_head {ts : List Tag} {segs : List String} {target : Tag} :
    PathTo ts segs target → ∃ t n rest, segs = n :: rest ∧ t ∈ ts ∧ n ∈ t.names
  | PathTo.here t _ n hmem hname => ⟨t, n, [], rfl, hmem, hname⟩
  | PathTo.there t _ n rest _ hmem hname _ => ⟨t, n, rest, rfl, hmem, hname⟩

theorem resolve_path_aux {ts : List Tag} {segs : List String} {target : Tag}
    (hp : PathTo ts segs target) :
    validate_tags ts = Except.ok () →
    ∀ n rest, segs = n :: rest →
    ∀ m : ArgMatches, segmentsOf m = rest →
    ∃ m2, find_matching_tag ts n m = some (target, m2, none) ∧ segmentsOf m2 = [] := by
  induction hp with
  | here t ts0 nm hmem hname =>
    intro hv n rest heq m hm
    injection heq with h1 h2
    subst h1; subst h2
    obtain ⟨out, hlev⟩ := validate_tags_level hv
    have hfind := find?_level hlev t hmem nm hname
    have hsub : m.removeSubcommand = none := segmentsOf_eq_nil hm
    refine ⟨m, ?_, hm⟩
    rw [find_matching_tag, hfind]
    split
    · rename_i heq
      exact Option.noConfusion heq
    · rename_i t2 heq
      injection heq with ht
      subst ht
      split
      · rename_i subcmd subMatches heq2
        rw [hsub] at heq2
        exact Option.noConfusion heq2
      · rfl
  | there t ts0 nm rest0 tgt hmem hname hpath ih =>
    intro hv n rest heq m hm
    injection heq with h1 h2
    subst h1; subst h2
    obtain ⟨u, n2, rest2, hr0, humem, hun⟩ := PathTo_head hpath
    subst hr0
    obtain ⟨m2, hsub, hm2⟩ := segmentsOf_eq_cons hm
    obtain ⟨out, hlev⟩ := validate_tags_level hv
    have hfind := find?_level hlev t hmem nm hname
    have hvsub : validate_tags t.subtags = Except.ok () := validate_tags_mem hv hmem
    obtain ⟨out2, hlev2⟩ := validate_tags_level hvsub
    have hnres : n2 ∉ DEFAULT_SUBCOMMAND_NAMES := (checkLevelAux_mem hlev2 u humem n2 hun).2
    obtain ⟨m3, hfind2, hm3⟩ := ih hvsub n2 rest2 rfl m2 hm2
    refine ⟨m3, ?_, hm3⟩
    rw [find_matching_tag, hfind]
    split
    · rename_i heq
      exact Option.noConfusion heq
    · rename_i t2 heq
      injection heq with ht
      subst ht
      split
      · rename_i subcmd subMatches heq2
        rw [hsub] at heq2
        injection heq2 with hpair
        injection hpair with hc hmm
        subst hc; subst hmm
        rw [if_neg hnres]
        exact hfind2
      · rename_i heq2
        rw [hsub] at heq2
        exact Option.noConfusion heq2

/-- Any successful resolution returns a tag with at least one name (it
matched a segment), and a returned management word is reserved. -/
theorem find_result_live (tags : List Tag) (cmd : String) (m : ArgMatches) :
    ∀ u m2 s, find_matching_tag tags cmd m = some (u, m2, s) →
    u.names ≠ [] ∧ ∀ x, s = some x → x ∈ DEFAULT_SUBCOMMAND_NAMES := by
  induction tags, cmd, m using find_matching_tag.induct with
  | case1 tags cmd m hfind =>
    intro u m2 s h
    rw [find_matching_tag, hfind] at h
    exact Option.noConfusion h
  | case2 tags cmd m t hfind subcmd subMatches hsub hres =>
    intro u m2 s h
    rw [find_matching_tag, hfind] at h
    have hmemcmd : cmd ∈ t.names := by
      have := List.find?_some hfind
      simpa using this
    split at h
    · exact Option.noConfusion h
    · rename_i t2 heq
      injection heq with ht
      subst ht
      split at h
      · rename_i sc2 sm2 heq2
        rw [hsub] at heq2
        injection heq2 with hpair
        injection hpair with hc hm2
        subst hc; subst hm2
        rw [if_pos hres] at h
        injection h with h3
        injection h3 with h4 h5
        subst h4
        injection h5 with h6 h7
        subst h7
        refine ⟨List.ne_nil_of_mem hmemcmd, fun x hx => ?_⟩
        injection hx with hx2
        subst hx2
        exact hres
      · rename_i heq2
        rw [hsub] at heq2
        exact Option.noConfusion heq2
  | case3 tags cmd m t hfind subcmd subMatches hsub hres ih =>
    intro u m2 s h
    rw [find_matching_tag, hfind] at h
    split at h
    · exact Option.noConfusion h
    · rename_i t2 heq
      injection heq with ht
      subst ht
      split at h
      · rename_i sc2 sm2 heq2
        rw [hsub] at heq2
        injection heq2 with hpair
        injection hpair with hc hm2
        subst hc; subst hm2
        rw [if_neg hres] at h
        exact ih u m2 s h
      · rename_i heq2
        rw [hsub] at heq2
        exact Option.noConfusion heq2
  | case4 tags cmd m t hfind hsub =>
    intro u m2 s h
    rw [find_matching_tag, hfind] at h
    have hmemcmd : cmd ∈ t.names := by
      have := List.find?_some hfind
      simpa using this
    split at h
    · exact Option.noConfusion h
    · rename_i t2 heq
      injection heq with ht
      subst ht
      split at h
      · rename_i sc2 sm2 heq2
        rw [hsub] at heq2
        exact Option.noConfusion heq2
      · injection h with h3
        injection h3 with h4 h5
        subst h4
        injection h5 with h6 h7
        subst h7
        exact ⟨List.ne_nil_of_mem hmemcmd, fun x hx => Option.noConfusion hx⟩

/-- Every member of a serialized (tombstone-filtered) forest is live and
its subtags are again a serialized forest. -/
theorem mem_skip_no_names {ts : List Tag} :
    ∀ u, u ∈ skip_no_names ts →
    u.names ≠ [] ∧ ∃ subs0, u.subtags = skip_no_names subs0 := by
  induction ts using skip_no_names.induct with
  | case1 =>
    intro u hu
    simp [skip_no_names] at hu
  | case2 ns p ab a subs ts hempty ih =>
    intro u hu
    rw [skip_no_names, if_pos hempty] at hu
    exact ih u hu
  | case3 ns p ab a subs ts hempty ih1 ih2 =>
    intro u hu
    rw [skip_no_names, if_neg hempty] at hu
    rcases List.mem_cons.mp hu with rfl | hu2
    · refine ⟨?_, subs, rfl⟩
      simp [Tag.names]
      intro hc
      subst hc
      simp at hempty
    · exact ih2 u hu2

/-- No tag anywhere inside a serialized forest is tombstoned. -/
theorem InForest_skip_live {u : Tag} {ts0 : List Tag} (h : InForest u ts0) :
    ∀ ts, ts0 = skip_no_names ts → u.names ≠ [] := by
  induction h with
  | root ts1 hmem =>
    intro ts heq
    subst heq
    exact (mem_skip_no_names u hmem).1
  | child v ts1 hmem hin ih =>
    intro ts heq
    subst heq
    obtain ⟨subs0, hsubs⟩ := (mem_skip_no_names v hmem).2
    exact ih subs0 hsubs

/-- After tombstoning the tag at index `i` of a validated level, no
former name of that tag matches any tag of the level any more. -/
theorem find?_set_tombstone {ts : List Tag} :
    ∀ {seen out : List String} {i : Nat} {t : Tag} {nm : String},
    checkLevelAux seen ts = Except.ok out → ts[i]? = some t → nm ∈ t.names →
    (ts.set i (clearNames t)).find? (fun u => u.names.contains nm) = none := by
  induction ts with
  | nil =>
    intro seen out i t nm hlev hget
    simp at hget
  | cons u rest ih =>
    intro seen out i t nm hlev hget hname
    simp only [checkLevelAux] at hlev
    cases h2 : checkNamesSeen seen u.names with
    | error e => rw [h2] at hlev; exact absurd hlev (by simp)
    | ok seen2 =>
      rw [h2] at hlev
      cases i with
      | zero =>
        simp only [List.getElem?_cons_zero] at hget
        injection hget with hu
        subst hu
        have hclear : nm ∉ (clearNames u).names := by
          cases u with
          | mk ns p ab a subs => simp [clearNames, Tag.names]
        rw [List.set_cons_zero, List.find?_cons_of_neg rest (by simp [hclear])]
        apply List.find?_eq_none.mpr
        intro v hv
        simp only [Bool.not_eq_true]
        by_cases hvn : nm ∈ v.names
        · have hseen2 : nm ∈ seen2 := (checkNamesSeen_mem h2 nm hname).2.2
          exact absurd hseen2 ((checkLevelAux_mem hlev v hv nm hvn).1)
        · simp [hvn]
      | succ j =>
        simp only [List.getElem?_cons_succ] at hget
        have htmem : t ∈ rest := by
          have := List.getElem?_eq_some.mp hget
          obtain ⟨hj, rfl⟩ := this
          exact List.getElem_mem hj
        have hnotu : nm ∉ u.names := by
          intro hcu
          have hseen2 : nm ∈ seen2 := (checkNamesSeen_mem h2 nm hcu).2.2
          exact ((checkLevelAux_mem hlev t htmem nm hname).1) hseen2
        rw [List.set_cons_succ, List.find?_cons_of_neg _ (by simp [hnotu])]
        exact ih hlev hget hname

/-! ## Claim theorems -/

/-- C1: for every tag forest passing the full-tree validation
(`validate_tags`), resolving the sequence of names from the root to any
live tag (its primary name or any alias at each level) via
`find_matching_tag` returns exactly that tag, with no remaining segments
and no reserved-word detour. -/
theorem C1_validated_path_resolves_to_tag
    (ts : List Tag) (target : Tag) (n : String) (rest : List String) (m : ArgMatches)
    (hv : validate_tags ts = Except.ok ())
    (hp : PathTo ts (n :: rest) target)
    (hm : segmentsOf m = rest) :
    ∃ m2, find_matching_tag ts n m = some (target, m2, none) ∧ segmentsOf m2 = [] :=
  resolve_path_aux hp hv n rest rfl m hm

/-- Witness for C1 on the forest `[work [docs]]` with invocation
`work docs --print`. -/
theorem C1_validated_path_resolves_to_tag_witness :
    validate_tags [Tag.mk ["work"] none none none
      [Tag.mk ["docs"] (some "/d") none none []]] = Except.ok () ∧
    PathTo [Tag.mk ["work"] none none none [Tag.mk ["docs"] (some "/d") none none []]]
      ["work", "docs"] (Tag.mk ["docs"] (some "/d") none none []) ∧
    ∃ m2,
      find_matching_tag
        [Tag.mk ["work"] none none none [Tag.mk ["docs"] (some "/d") none none []]]
        "work"
        (ArgMatches.mk false false false false false none
          (some ("docs", ArgMatches.mk false true false false false none none))) =
        some (Tag.mk ["docs"] (some "/d") none none [], m2, none) ∧ segmentsOf m2 = [] := by
  have hv : validate_tags [Tag.mk ["work"] none none none
      [Tag.mk ["docs"] (some "/d") none none []]] = Except.ok () := by
    simp [validate_tags, validate_children, checkLevelAux, checkNamesSeen, Tag.names,
      DEFAULT_SUBCOMMAND_NAMES]
  have hp : PathTo [Tag.mk ["work"] none none none
        [Tag.mk ["docs"] (some "/d") none none []]]
      ["work", "docs"] (Tag.mk ["docs"] (some "/d") none none []) := by
    apply PathTo.there (Tag.mk ["work"] none none none
      [Tag.mk ["docs"] (some "/d") none none []])
    · simp
    · simp [Tag.names]
    · apply PathTo.here (Tag.mk ["docs"] (some "/d") none none [])
      · simp [Tag.subtags]
      · simp [Tag.names]
  exact ⟨hv, hp, C1_validated_path_resolves_to_tag _ _ "work" ["docs"] _ hv hp
    (by simp [segmentsOf])⟩

/-- C2: tombstoning a tag through `remove_tag_inline` clears its names;
afterwards its former names resolve to nothing, no resolution ever
returns a nameless tag, the serialized forest omits tombstones
recursively at every level, and the parent sequence keeps its length and
the positions of all other entries. -/
theorem C2_tombstone_semantics
    (ts : List Tag) (i : Nat) (t t2 : Tag) (b : Bool)
    (hget : ts[i]? = some t)
    (hrem : remove_tag_inline t true false = some (t2, b)) :
    t2.names = [] ∧ b = true ∧
    (validate_tags ts = Except.ok () →
      ∀ nm, nm ∈ t.names → ∀ m, find_matching_tag (ts.set i t2) nm m = none) ∧
    (∀ cmd m u m2 s, find_matching_tag (ts.set i t2) cmd m = some (u, m2, s) →
      u.names ≠ []) ∧
    (∀ u, InForest u (skip_no_names (ts.set i t2)) → u.names ≠ []) ∧
    (ts.set i t2).length = ts.length ∧
    (∀ j, j ≠ i → (ts.set i t2)[j]? = ts[j]?) := by
  have h1 : t2 = clearNames t ∧ b = true := by
    simp [remove_tag_inline] at hrem
    exact ⟨hrem.1.symm, hrem.2⟩
  obtain ⟨rfl, rfl⟩ := h1
  refine ⟨?_, rfl, ?_, ?_, ?_, List.length_set ts i (clearNames t), ?_⟩
  · cases t with
    | mk ns p ab a subs => simp [clearNames, Tag.names]
  · intro hv nm hnm m
    obtain ⟨out, hlev⟩ := validate_tags_level hv
    have hnone := find?_set_tombstone hlev hget hnm
    rw [find_matching_tag, hnone]
  · intro cmd m u m2 s h
    exact (find_result_live _ cmd m u m2 s h).1
  · intro u hin
    exact InForest_skip_live hin _ rfl
  · intro j hj
    exact List.getElem?_set_ne (Ne.symm hj)

/-- Witness for C2 on a two-tag root level, tombstoning index 0. -/
theorem C2_tombstone_semantics_witness :
    remove_tag_inline (Tag.mk ["a"] (some "/x") none none []) true false =
      some (Tag.mk [] (some "/x") none none [], true) ∧
    (Tag.mk [] (some "/x") none none [] : Tag).names = [] ∧
    (∀ j, j ≠ 0 →
      ([Tag.mk ["a"] (some "/x") none none [], Tag.mk ["b"] none none none []].set 0
        (Tag.mk [] (some "/x") none none []))[j]? =
      [Tag.mk ["a"] (some "/x") none none [], Tag.mk ["b"] none none none []][j]?) := by
  have h := C2_tombstone_semantics
    [Tag.mk ["a"] (some "/x") none none [], Tag.mk ["b"] none none none []] 0
    (Tag.mk ["a"] (some "/x") none none []) (Tag.mk [] (some "/x") none none []) true
    (by simp) (by simp [remove_tag_inline, clearNames])
  exact ⟨by simp [remove_tag_inline, clearNames], h.1, h.2.2.2.2.2.2⟩

/-- C6: during resolution, the next segment is compared against the
reserved management words before the next level is scanned, so on a
reserved word the resolver stops immediately and returns the management
operation with the node whose level it terminated at, whatever that
node's subtags contain; and any management word the resolver ever
returns is reserved. -/
theorem C6_reserved_word_precedence
    (ts : List Tag) (t : Tag) (cmd sc : String) (m sm : ArgMatches)
    (hv : validate_tags ts = Except.ok ())
    (ht : t ∈ ts) (hc : cmd ∈ t.names)
    (hsub : m.removeSubcommand = some (sc, sm))
    (hres : sc ∈ DEFAULT_SUBCOMMAND_NAMES) :
    find_matching_tag ts cmd m = some (t, sm, some sc) ∧
    (∀ ts2 cmd2 m2 u m3 x, find_matching_tag ts2 cmd2 m2 = some (u, m3, some x) →
      x ∈ DEFAULT_SUBCOMMAND_NAMES) := by
  constructor
  · obtain ⟨out, hlev⟩ := validate_tags_level hv
    have hfind := find?_level hlev t ht cmd hc
    rw [find_matching_tag, hfind]
    split
    · rename_i heq
      exact Option.noConfusion heq
    · rename_i t2 heq
      injection heq with htt
      subst htt
      split
      · rename_i sc2 sm2 heq2
        rw [hsub] at heq2
        injection heq2 with hpair
        injection hpair with hc2 hm2
        subst hc2; subst hm2
        rw [if_pos hres]
      · rename_i heq2
        rw [hsub] at heq2
        exact Option.noConfusion heq2
  · intro ts2 cmd2 m2 u m3 x h
    exact (find_result_live ts2 cmd2 m2 u m3 (some x) h).2 x rfl

/-- Witness for C6: `w add` stops at the reserved word `add` under `w`,
even though `w` has a subtag named `addx`. -/
theorem C6_reserved_word_precedence_witness :
    validate_tags [Tag.mk ["w"] none none none [Tag.mk ["addx"] none none none []]] =
      Except.ok () ∧
    "add" ∈ DEFAULT_SUBCOMMAND_NAMES ∧
    find_matching_tag [Tag.mk ["w"] none none none [Tag.mk ["addx"] none none none []]]
      "w" (ArgMatches.mk false false false false false none
        (some ("add", ArgMatches.mk false false false false false none none))) =
      some (Tag.mk ["w"] none none none [Tag.mk ["addx"] none none none []],
        ArgMatches.mk false false false false false none none, some "add") := by
  have hv : validate_tags
      [Tag.mk ["w"] none none none [Tag.mk ["addx"] none none none []]] = Except.ok () := by
    simp [validate_tags, validate_children, checkLevelAux, checkNamesSeen, Tag.names,
      DEFAULT_SUBCOMMAND_NAMES]
  refine ⟨hv, by simp [DEFAULT_SUBCOMMAND_NAMES], ?_⟩
  exact (C6_reserved_word_precedence _ _ "w" "add"
    (ArgMatches.mk false false false false false none
      (some ("add", ArgMatches.mk false false false false false none none)))
    (ArgMatches.mk false false false false false none none)
    hv (by simp) (by simp [Tag.names]) rfl (by simp [DEFAULT_SUBCOMMAND_NAMES])).1

/-- Accumulator form of the `from_matches` merge loop: booleans are
or-ed with what the list contributes, and `app` keeps the accumulator
value when set, else the first value the list offers. -/
theorem from_matches_foldl (lom : List ArgMatches) :
    ∀ acc : MatchOptions,
    List.foldl
      (fun flags m =>
        { list := flags.list || m.listFlag
          print := flags.print || m.printFlag
          copy := flags.copy || m.copyFlag
          silent_copy := flags.silent_copy || m.silentCopyFlag
          app := match flags.app with
            | some a => some a
            | none => m.appOpt
          info := flags.info || m.infoFlag })
      acc lom =
    { list := acc.list || lom.any ArgMatches.listFlag
      print := acc.print || lom.any ArgMatches.printFlag
      copy := acc.copy || lom.any ArgMatches.copyFlag
      silent_copy := acc.silent_copy || lom.any ArgMatches.silentCopyFlag
      app := match acc.app with
        | some a => some a
        | none => lom.findSome? ArgMatches.appOpt
      info := acc.info || lom.any ArgMatches.infoFlag } := by
  induction lom with
  | nil =>
    intro acc
    cases acc with
    | mk pr cp li sc a i => cases a <;> simp
  | cons m lom ih =>
    intro acc
    rw [List.foldl_cons, ih]
    cases acc with
    | mk pr cp li sc a i =>
      cases a with
      | none =>
        cases hm : m.appOpt <;>
          simp [List.any_cons, List.findSome?_cons, hm, Bool.or_assoc]
      | some a0 =>
        simp [List.any_cons, Bool.or_assoc]

/-- C5: the merged action of a multi-level invocation or-s the boolean
flags (print, copy, silent-copy, list, info) of every traversed level
and takes the first `app` value in traversal order, so an outer `app`
wins over an inner one. -/
theorem C5_flag_merge_or_and_first_app (lom : List ArgMatches) :
    MatchOptions.from_matches lom =
      { print := lom.any ArgMatches.printFlag
        copy := lom.any ArgMatches.copyFlag
        list := lom.any ArgMatches.listFlag
        silent_copy := lom.any ArgMatches.silentCopyFlag
        app := lom.findSome? ArgMatches.appOpt
        info := lom.any ArgMatches.infoFlag } := by
  rw [MatchOptions.from_matches, from_matches_foldl]
  simp

/-- C8: `run_tag` raises `TagWithNoPath` exactly when neither list mode
nor info mode applies and the tag has no path, i.e. only when the
path-requiring default action chain (open, print, copy, silent-copy) is
reached on a pathless tag; list-only or info-only invocations on a
pathless tag never produce it. -/
theorem C8_TagWithNoPath_iff (t : Tag) (opts : MatchOptions) :
    run_tag t opts = Except.error Error.TagWithNoPath ↔
      (opts.list = false ∧ opts.info = false ∧ t.path = none) := by
  cases opts with
  | mk pr cp li sc app inf =>
    cases t with
    | mk ns p ab a subs =>
      cases li <;> cases inf <;> cases pr <;> cases cp <;> cases sc <;> cases p <;>
        simp [run_tag, Tag.path, Tag.subtags, Tag.app] <;>
        split <;> simp

/-- C9: with the info flag set, `run_tag` never invokes the OS open
action; outside list mode it prints the tag info, and combined with copy
on a tag with a path it copies the path silently. -/
theorem C9_info_suppresses_open (t : Tag) (opts : MatchOptions)
    (hinfo : opts.info = true) :
    ∃ eff, run_tag t opts = Except.ok eff ∧ eff.opened = none ∧
      (opts.list = false → eff.printedInfo = true) ∧
      (∀ pth, opts.list = false → opts.copy = true → t.path = some pth →
        eff.copiedPath = some pth) := by
  cases opts with
  | mk pr cp li sc app inf =>
    cases t with
    | mk ns p ab a subs =>
      have hinf : inf = true := hinfo
      subst hinf
      cases li <;> cases pr <;> cases cp <;> cases sc <;> cases p <;> cases subs <;>
        exact ⟨_, rfl, by simp, by simp, by simp [Tag.path]⟩

/-- Witness for C9: info with copy on a tag with a path copies silently
and does not open. -/
theorem C9_info_suppresses_open_witness :
    (({ info := true, copy := true } : MatchOptions).info = true) ∧
    ∃ eff, run_tag (Tag.mk ["a"] (some "/x") none none [])
        { info := true, copy := true } = Except.ok eff ∧ eff.opened = none ∧
      (({ info := true, copy := true } : MatchOptions).list = false →
        eff.printedInfo = true) ∧
      (∀ pth, ({ info := true, copy := true } : MatchOptions).list = false →
        ({ info := true, copy := true } : MatchOptions).copy = true →
        (Tag.mk ["a"] (some "/x") none none [] : Tag).path = some pth →
        eff.copiedPath = some pth) :=
  ⟨rfl, C9_info_suppresses_open (Tag.mk ["a"] (some "/x") none none [])
    { info := true, copy := true } rfl⟩

/-- C4: update semantics on a resolved (live) tag: a field flag given
without a value clears path/about/app; an absent flag leaves the field
untouched; a new primary name replaces only `names[0]`; a non-empty
alias list replaces `names[1..]` wholesale; an explicitly empty alias
flag truncates to the primary name alone. -/
theorem C4_update_field_semantics (t : Tag) (args : UpdateArgs)
    (hn : t.names ≠ []) :
    ∃ u, update_tag_inline t args = some u ∧
      (args.path = some none → u.path = none) ∧
      (args.path = none → u.path = t.path) ∧
      (∀ v, args.path = some (some v) → u.path = some v) ∧
      (args.about = some none → u.about = none) ∧
      (args.about = none → u.about = t.about) ∧
      (∀ v, args.about = some (some v) → u.about = some v) ∧
      (args.app = some none → u.app = none) ∧
      (args.app = none → u.app = t.app) ∧
      (∀ v, args.app = some (some v) → u.app = some v) ∧
      (args.name = none → args.aliasList = none → u.names = t.names) ∧
      (∀ n, args.name = some n → args.aliasList = none →
        u.names = n :: t.names.tail) ∧
      (∀ as, args.name = none → args.aliasList = some (some as) → as ≠ [] →
        u.names = t.names.take 1 ++ as) ∧
      (∀ n as, args.name = some n → args.aliasList = some (some as) → as ≠ [] →
        u.names = n :: as) ∧
      (args.name = none → args.aliasList = some none → u.names = t.names.take 1) ∧
      (∀ n, args.name = some n → args.aliasList = some none → u.names = [n]) ∧
      u.subtags = t.subtags := by
  cases t with
  | mk ns p ab a subs =>
    have hns : ns ≠ [] := by simpa [Tag.names] using hn
    obtain ⟨n0, nrest, rfl⟩ : ∃ n0 nrest, ns = n0 :: nrest := by
      cases ns with
      | nil => exact absurd rfl hns
      | cons x xs => exact ⟨x, xs, rfl⟩
    have hu : update_tag_inline (Tag.mk (n0 :: nrest) p ab a subs) args =
        some (Tag.mk
          (applyAliases ((match args.name with
            | none => n0
            | some n => n) :: nrest) args.aliasList)
          (updateIfPresent args.path p) (updateIfPresent args.about ab)
          (updateIfPresent args.app a) subs) := by
      cases hname : args.name <;>
        simp [update_tag_inline, Tag.names, Tag.path, Tag.about, Tag.app, Tag.subtags, hname]
    refine ⟨_, hu, ?_, ?_, ?_, ?_, ?_, ?_, ?_, ?_, ?_, ?_, ?_, ?_, ?_, ?_, ?_, ?_⟩
    · intro h; simp [Tag.path, h, updateIfPresent]
    · intro h; simp [Tag.path, h, updateIfPresent]
    · intro v h; simp [Tag.path, h, updateIfPresent]
    · intro h; simp [Tag.about, h, updateIfPresent]
    · intro h; simp [Tag.about, h, updateIfPresent]
    · intro v h; simp [Tag.about, h, updateIfPresent]
    · intro h; simp [Tag.app, h, updateIfPresent]
    · intro h; simp [Tag.app, h, updateIfPresent]
    · intro v h; simp [Tag.app, h, updateIfPresent]
    · intro h1 h2; simp [Tag.names, h1, h2, applyAliases]
    · intro n h1 h2; simp [Tag.names, h1, h2, applyAliases]
    · intro as h1 h2 hne
      cases as with
      | nil => exact absurd rfl hne
      | cons a0 arest => simp [Tag.names, h1, h2, applyAliases]
    · intro n as h1 h2 hne
      cases as with
      | nil => exact absurd rfl hne
      | cons a0 arest => simp [Tag.names, h1, h2, applyAliases]
    · intro h1 h2; simp [Tag.names, h1, h2, applyAliases]
    · intro n h1 h2; simp [Tag.names, h1, h2, applyAliases]
    · simp [Tag.subtags]

/-- Witness for C4: clearing the path, setting a new primary name and
replacing the aliases on a concrete live tag. -/
theorem C4_update_field_semantics_witness :
    ((Tag.mk ["n", "al"] (some "/p") (some "d") (some "ap") [] : Tag).names ≠ []) ∧
    ∃ u, update_tag_inline (Tag.mk ["n", "al"] (some "/p") (some "d") (some "ap") [])
        { name := some "m", aliasList := some (some ["x"]), path := some none } = some u ∧
      u.path = none ∧ u.about = some "d" ∧ u.app = some "ap" ∧ u.names = ["m", "x"] := by
  have hn : (Tag.mk ["n", "al"] (some "/p") (some "d") (some "ap") [] : Tag).names ≠ [] := by
    simp [Tag.names]
  obtain ⟨u, hu, hp1, hp2, hp3, hab1, hab2, hab3, hap1, hap2, hap3, hn1, hn2, hn3,
    hn4, hn5, hn6, hsub⟩ :=
    C4_update_field_semantics (Tag.mk ["n", "al"] (some "/p") (some "d") (some "ap") [])
      { name := some "m", aliasList := some (some ["x"]), path := some none } hn
  refine ⟨hn, u, hu, hp1 rfl, ?_, ?_, ?_⟩
  · rw [hab2 rfl]; simp [Tag.about]
  · rw [hap2 rfl]; simp [Tag.app]
  · rw [hn4 "m" ["x"] rfl rfl (by simp)]

/-- C3: an inline add fails when a name is reserved (rejected by the
`clap` value parsers with the `ReservedName` message before the mutation
engine runs) or already used by a sibling (rejected by `add_tag_inline`
with `NameInUse`), and in every failure the target level is returned
unchanged -- the append only happens after the collision check. -/
theorem C3_add_fails_reserved_or_in_use
    (nameArg : String) (aliasArg : Option String) (tags : List Tag) :
    (nameArg ∈ DEFAULT_SUBCOMMAND_NAMES →
      add_tag_command nameArg aliasArg tags =
        (Except.error (errorMessage (Error.ReservedName nameArg)), tags)) ∧
    (∀ s n, aliasArg = some s →
      parse_tag_name nameArg = Except.ok nameArg →
      s.data.any (fun c => c = ' ') = false →
      beginsWithHyphen s = false →
      (splitOnComma s).find? (fun x => DEFAULT_SUBCOMMAND_NAMES.contains x) = some n →
      add_tag_command nameArg aliasArg tags =
        (Except.error (errorMessage (Error.ReservedName n)), tags)) ∧
    (∀ aliases n, parse_tag_name nameArg = Except.ok nameArg →
      parse_alias_arg aliasArg = Except.ok aliases →
      check_if_names_are_used (nameArg :: aliases) tags = some n →
      add_tag_command nameArg aliasArg tags =
        (Except.error (errorMessage (Error.NameInUse n)), tags)) ∧
    (∀ n2 ns2, check_if_names_are_used ns2 tags = some n2 →
      n2 ∈ ns2 ∧ ∃ u, u ∈ tags ∧ n2 ∈ u.names) ∧
    (∀ e, (add_tag_command nameArg aliasArg tags).1 = Except.error e →
      (add_tag_command nameArg aliasArg tags).2 = tags) := by
  refine ⟨?_, ?_, ?_, ?_, ?_⟩
  · intro hres
    have h3 : nameArg = "add" ∨ nameArg = "remove" ∨ nameArg = "update" := by
      simpa [DEFAULT_SUBCOMMAND_NAMES] using hres
    rcases h3 with rfl | rfl | rfl <;> rfl
  · intro s n hs hn hsp hh hfind
    subst hs
    simp only [add_tag_command, hn, parse_alias_arg, parse_tag_aliases, hsp, hh,
      Bool.false_eq_true, if_false, hfind]
    simp [errorMessage]
  · intro aliases n hn halias hused
    simp only [add_tag_command, hn, halias, add_tag_inline, Tag.names, hused]
  · intro n2 ns2 h
    refine ⟨List.mem_of_find?_eq_some h, ?_⟩
    have hp := List.find?_some h
    simp only [List.any_eq_true] at hp
    obtain ⟨u, hu, hcon⟩ := hp
    exact ⟨u, hu, by simpa using hcon⟩
  · intro e h
    cases hp : parse_tag_name nameArg with
    | error e2 => simp [add_tag_command, hp]
    | ok name2 =>
      cases ha : parse_alias_arg aliasArg with
      | error e2 => simp [add_tag_command, hp, ha]
      | ok aliases =>
        cases hc : check_if_names_are_used (name2 :: aliases) tags with
        | some nm => simp [add_tag_command, hp, ha, add_tag_inline, Tag.names, hc]
        | none =>
          simp [add_tag_command, hp, ha, add_tag_inline, Tag.names, hc] at h

/-- Witness for C3: adding a tag named `add` fails with the
`ReservedName` message and leaves the (empty) level unchanged. -/
theorem C3_add_fails_reserved_or_in_use_witness :
    ("add" ∈ DEFAULT_SUBCOMMAND_NAMES) ∧
    add_tag_command "add" none [] =
      (Except.error (errorMessage (Error.ReservedName "add")), []) :=
  ⟨by simp [DEFAULT_SUBCOMMAND_NAMES],
    (C3_add_fails_reserved_or_in_use "add" none []).1
      (by simp [DEFAULT_SUBCOMMAND_NAMES])⟩

/-- C7 counterexample: the alias parser only checks the whole alias
string for a leading hyphen, so the alias `-b` in second position passes
input parsing and reaches the mutation engine, which appends it to the
tree. -/
theorem C7_counterexample_hyphen_alias_reaches_engine :
    add_tag_command "x" (some "a,-b") [] =
      (Except.ok (), [Tag.mk ["x", "a", "-b"] none none none []]) ∧
    beginsWithHyphen "-b" = true ∧
    "-b" ∈ (Tag.mk ["x", "a", "-b"] none none none [] : Tag).names := by
  refine ⟨rfl, rfl, by simp [Tag.names]⟩

/-- C7 amended: the inline primary-name parser rejects empty,
space-containing, hyphen-beginning and reserved names before any
mutation; the inline alias parser rejects a space anywhere, a leading
hyphen on the whole string, and reserved aliases; and a parse failure
returns the tree unchanged before the mutation engine is reached.
(Individual empty or hyphen-beginning aliases after the first position,
and interactively entered names, are not parse-checked.) -/
theorem C7_amended_parse_time_guards :
    (∀ s t2, parse_tag_name s = Except.ok t2 →
      t2 = s ∧ s.data.isEmpty = false ∧ s.data.any (fun c => c = ' ') = false ∧
      beginsWithHyphen s = false ∧ s ∉ DEFAULT_SUBCOMMAND_NAMES) ∧
    (∀ s ns, parse_tag_aliases s = Except.ok ns →
      ns = splitOnComma s ∧ s.data.any (fun c => c = ' ') = false ∧
      beginsWithHyphen s = false ∧ ∀ x, x ∈ ns → x ∉ DEFAULT_SUBCOMMAND_NAMES) ∧
    (∀ nameArg aliasArg tags e, parse_tag_name nameArg = Except.error e →
      add_tag_command nameArg aliasArg tags = (Except.error e, tags)) := by
  refine ⟨?_, ?_, ?_⟩
  · intro s t2 h
    simp only [parse_tag_name] at h
    split at h
    · exact absurd h (by simp)
    · split at h
      · exact absurd h (by simp)
      · split at h
        · exact absurd h (by simp)
        · split at h
          · exact absurd h (by simp)
          · rename_i hc1 hc2 hc3 hc4
            injection h with ht
            refine ⟨ht.symm, ?_, ?_, ?_, hc4⟩
            · simpa using hc1
            · simp only [Bool.not_eq_true] at hc2
              exact hc2
            · simpa using hc3
  · intro s ns h
    simp only [parse_tag_aliases] at h
    split at h
    · exact absurd h (by simp)
    · split at h
      · exact absurd h (by simp)
      · cases hfind : (splitOnComma s).find?
            (fun n => DEFAULT_SUBCOMMAND_NAMES.contains n) with
        | some n =>
          rw [hfind] at h
          exact absurd h (by simp)
        | none =>
          rw [hfind] at h
          injection h with hns
          rename_i hc1 hc2
          simp only [Bool.not_eq_true] at hc1
          refine ⟨hns.symm, hc1, by simpa using hc2, ?_⟩
          intro x hx
          have hx2 : x ∈ splitOnComma s := by rw [hns]; exact hx
          have := List.find?_eq_none.mp hfind x hx2
          simpa using this
  · intro nameArg aliasArg tags e h
    simp only [add_tag_command, h]

/-- Witness for C7 amended: the alias string `a,b` passes the parser and
satisfies all the parse-time guarantees. -/
theorem C7_amended_parse_time_guards_witness :
    parse_tag_aliases "a,b" = Except.ok ["a", "b"] ∧
    (["a", "b"] = splitOnComma "a,b" ∧
      "a,b".data.any (fun c => c = ' ') = false ∧
      beginsWithHyphen "a,b" = false ∧
      ∀ x, x ∈ ["a", "b"] → x ∉ DEFAULT_SUBCOMMAND_NAMES) :=
  ⟨rfl, C7_amended_parse_time_guards.2.1 "a,b" ["a", "b"] rfl⟩

/-- A live forest has only live roots, each with a live subtree. -/
theorem allLive_forall {ts : List Tag} (h : allLive ts = true) :
    ∀ t, t ∈ ts → t.names ≠ [] ∧ allLive t.subtags = true := by
  induction ts with
  | nil =>
    intro t ht
    simp at ht
  | cons u rest ih =>
    intro t ht
    cases u with
    | mk ns p ab a subs =>
      simp only [allLive, Bool.and_eq_true] at h
      rcases List.mem_cons.mp ht with rfl | ht2
      · refine ⟨?_, by simpa [Tag.subtags] using h.1.2⟩
        have := h.1.1
        simp only [Bool.not_eq_true', List.isEmpty_eq_false] at this
        simpa [Tag.names] using this
      · exact ih h.2 t ht2

theorem allLive_any_isEmpty {ts : List Tag} (h : allLive ts = true) :
    (ts.any fun u => u.names.isEmpty) = false := by
  apply List.any_eq_false.mpr
  intro u hu
  have := (allLive_forall h u hu).1
  simpa [List.isEmpty_iff] using this

/-- Everything inside a live forest is live. -/
theorem allLive_InForest {u : Tag} {ts : List Tag} (hin : InForest u ts) :
    allLive ts = true → u.names ≠ [] := by
  induction hin with
  | root ts1 hmem =>
    intro h
    exact (allLive_forall h u hmem).1
  | child v ts1 hmem hin2 ih =>
    intro h
    exact ih (allLive_forall h v hmem).2

/-- On a live forest with in-bounds oracle answers, `select_tag` never
reaches a panic, and whatever tag it selects lies in the forest. -/
theorem select_tag_sound :
    ∀ (cs : List (Option Nat)) (ts : List Tag), allLive ts = true →
    (choicesOk ts cs = true → select_tag ts cs ≠ none) ∧
    (∀ u, select_tag ts cs = some (some u) → InForest u ts) := by
  intro cs
  induction cs with
  | nil =>
    intro ts hlive
    have hany := allLive_any_isEmpty hlive
    constructor
    · intro _
      simp [select_tag, hany]
    · intro u hu
      simp [select_tag, hany] at hu
  | cons c rest ih =>
    intro ts hlive
    have hany := allLive_any_isEmpty hlive
    cases c with
    | none =>
      constructor
      · intro _
        simp [select_tag, hany]
      · intro u hu
        simp [select_tag, hany] at hu
    | some i =>
      cases hget : ts[i]? with
      | none =>
        constructor
        · intro hok
          simp [choicesOk, hget] at hok
        · intro u hu
          simp [select_tag, hany, hget] at hu
      | some t =>
        have hmem : t ∈ ts := by
          obtain ⟨hj, rfl⟩ := List.getElem?_eq_some.mp hget
          exact List.getElem_mem hj
        have hsub_live : allLive t.subtags = true := (allLive_forall hlive t hmem).2
        have ihsub := ih t.subtags hsub_live
        by_cases hempty : t.subtags.isEmpty = false
        · constructor
          · intro hok
            have hok2 : choicesOk t.subtags rest = true := by
              simp only [choicesOk, hget, Bool.or_eq_true] at hok
              rcases hok with h | h
              · simp [h] at hempty
              · exact h
            have hne := ihsub.1 hok2
            cases hsel : select_tag t.subtags rest with
            | none => exact absurd hsel hne
            | some o =>
              cases o with
              | none => simp [select_tag, hany, hget, hempty, hsel]
              | some u2 => simp [select_tag, hany, hget, hempty, hsel]
          · intro u hu
            cases hsel : select_tag t.subtags rest with
            | none =>
              simp [select_tag, hany, hget, hempty, hsel] at hu
            | some o =>
              cases o with
              | none =>
                simp [select_tag, hany, hget, hempty, hsel] at hu
                subst hu
                exact InForest.root _ ts hmem
              | some u2 =>
                simp [select_tag, hany, hget, hempty, hsel] at hu
                subst hu
                exact InForest.child _ t ts hmem (ihsub.2 _ hsel)
        · constructor
          · intro _
            simp [select_tag, hany, hget, hempty]
          · intro u hu
            simp [select_tag, hany, hget, hempty] at hu
            subst hu
            exact InForest.root _ ts hmem

/-- Building the command tree of a live forest never reaches the
`expect` panic. -/
theorem commands_from_tags_live :
    ∀ ts : List Tag, allLive ts = true → commands_from_tags ts ≠ none := by
  intro ts0
  induction ts0 using commands_from_tags.induct with
  | case1 =>
    intro _
    simp [commands_from_tags]
  | case2 ns p ab a subs ts hhead =>
    intro hlive
    simp only [allLive, Bool.and_eq_true] at hlive
    have := hlive.1.1
    simp only [Bool.not_eq_true', List.isEmpty_eq_false] at this
    rw [List.head?_eq_none_iff] at hhead
    exact absurd hhead this
  | case3 ns p ab a subs ts n0 hhead hsubs ih =>
    intro hlive
    simp only [allLive, Bool.and_eq_true] at hlive
    exact absurd hsubs (ih hlive.1.2)
  | case4 ns p ab a subs ts n0 hhead cs hsubs hts ih1 ih2 =>
    intro hlive
    simp only [allLive, Bool.and_eq_true] at hlive
    exact absurd hts (ih2 hlive.2)
  | case5 ns p ab a subs ts n0 hhead cs hsubs cs2 hts ih1 ih2 =>
    intro _
    simp [commands_from_tags, hhead, hsubs, hts]

/-- C10: the partial accesses of the mutation and projection code
(`names[0]` in remove/update, `first().expect` in selection and command
construction) never reach their panic branch on live tags: a tag reached
through resolution or selection always has a name. -/
theorem C10_partial_accesses_never_panic (t : Tag) (args : UpdateArgs)
    (np conf : Bool) (ts : List Tag) (cs : List (Option Nat)) :
    (t.names ≠ [] → remove_tag_inline t np conf ≠ none) ∧
    (t.names ≠ [] → update_tag_inline t args ≠ none) ∧
    (allLive ts = true → choicesOk ts cs = true → select_tag ts cs ≠ none) ∧
    (allLive ts = true → ∀ u, select_tag ts cs = some (some u) → u.names ≠ []) ∧
    (allLive [t] = true → command_from_tag t ≠ none) := by
  refine ⟨?_, ?_, ?_, ?_, ?_⟩
  · intro hn
    obtain ⟨n0, nrest, hns⟩ : ∃ n0 nrest, t.names = n0 :: nrest := by
      cases hcase : t.names with
      | nil => exact absurd hcase hn
      | cons x xs => exact ⟨x, xs, rfl⟩
    cases np <;> cases conf <;> simp [remove_tag_inline, hns]
  · intro hn
    obtain ⟨n0, nrest, hns⟩ : ∃ n0 nrest, t.names = n0 :: nrest := by
      cases hcase : t.names with
      | nil => exact absurd hcase hn
      | cons x xs => exact ⟨x, xs, rfl⟩
    cases hname : args.name <;> simp [update_tag_inline, hns, hname]
  · intro hlive
    exact (select_tag_sound cs ts hlive).1
  · intro hlive u hu
    exact allLive_InForest ((select_tag_sound cs ts hlive).2 u hu) hlive
  · intro hlive
    cases t with
    | mk ns p ab a subs =>
      simp only [allLive, Bool.and_eq_true] at hlive
      obtain ⟨n0, nrest, rfl⟩ : ∃ n0 nrest, ns = n0 :: nrest := by
        have := hlive.1.1
        simp only [Bool.not_eq_true', List.isEmpty_eq_false] at this
        cases hcase : ns with
        | nil => exact absurd hcase this
        | cons x xs => exact ⟨x, xs, rfl⟩
      have hsubs := commands_from_tags_live subs (by simpa [Tag.subtags] using hlive.1.2)
      cases hc : commands_from_tags subs with
      | none => exact absurd hc hsubs
      | some cts => simp [command_from_tag, hc]

/-- Witness for C10 on a concrete live two-level forest with a
one-level selection. -/
theorem C10_partial_accesses_never_panic_witness :
    ((Tag.mk ["a"] none none none [Tag.mk ["b"] none none none []] : Tag).names ≠ []) ∧
    allLive [Tag.mk ["a"] none none none [Tag.mk ["b"] none none none []]] = true ∧
    choicesOk [Tag.mk ["a"] none none none [Tag.mk ["b"] none none none []]]
      [some 0, none] = true ∧
    remove_tag_inline (Tag.mk ["a"] none none none [Tag.mk ["b"] none none none []])
      false true ≠ none ∧
    update_tag_inline (Tag.mk ["a"] none none none [Tag.mk ["b"] none none none []])
      { name := some "c" } ≠ none ∧
    select_tag [Tag.mk ["a"] none none none [Tag.mk ["b"] none none none []]]
      [some 0, none] ≠ none ∧
    command_from_tag (Tag.mk ["a"] none none none [Tag.mk ["b"] none none none []]) ≠
      none := by
  have h := C10_partial_accesses_never_panic
    (Tag.mk ["a"] none none none [Tag.mk ["b"] none none none []])
    { name := some "c" } false true
    [Tag.mk ["a"] none none none [Tag.mk ["b"] none none none []]] [some 0, none]
  have hn : (Tag.mk ["a"] none none none [Tag.mk ["b"] none none none []] : Tag).names ≠ [] := by
    simp [Tag.names]
  have hlive : allLive [Tag.mk ["a"] none none none [Tag.mk ["b"] none none none []]] =
      true := by
    simp [allLive]
  have hok : choicesOk [Tag.mk ["a"] none none none [Tag.mk ["b"] none none none []]]
      [some 0, none] = true := by
    simp [choicesOk, Tag.subtags]
  exact ⟨hn, hlive, hok, h.1 hn, h.2.1 hn, h.2.2.1 hlive hok,
    h.2.2.2.2 hlive⟩

end Opentag
